/-
Verification of the `lru` package: a generic LRU cache built from a
doubly-linked recency list (`container/list`) plus a hash index
(`map[K]*list.Element`), and a mutex wrapper (`mutex.go`).

Shallow embedding conventions:
* A `*list.Element` pointer is modelled by a stable numeric node id;
  `LRU.nextId` models pointer freshness (every allocated node gets a fresh id).
* The Go `map[K]*list.Element` is modelled as an association list
  `List (K × Nat)` with map semantics (insert overwrites, delete removes).
* The `container/list` list is modelled as `List (Node K V)` ordered
  front (most recently used) to back (least recently used).
* Mutating methods become state-passing functions.  Each function also
  returns the list of `(key, value)` pairs passed to the eviction callback,
  in invocation order ("events"): the Go code invokes `lru.evicted(k, v)`
  exactly where an event is emitted (when a callback is registered).
* Go zero values are `default` of an `Inhabited` instance.
* `Resize`'s `for lru.Len() > size` loop is modelled with fuel
  (`items.length` removals suffice whenever the loop terminates);
  a `none` result means the Go loop never terminates.
-/
import Mathlib

set_option linter.unusedSectionVars false

namespace LruSpec

/-- A node of the recency list: the Go `item[K, V]` stored in a
`list.Element`, together with the element's identity (`id` models the
pointer). -/
structure Node (K V : Type) where
  id : Nat
  key : K
  value : V
  deriving DecidableEq, Repr

/-- The cache state, from `type LRU[K comparable, V any] struct`:
`elem map[K]*list.Element`, `items *list.List`, `size int`.
The `evicted` callback field is not part of the state; callback
invocations are returned as event lists instead. -/
structure LRU (K V : Type) where
  elem : List (K × Nat)
  items : List (Node K V)
  nextId : Nat
  size : Int
  deriving DecidableEq, Repr

variable {K V : Type} [DecidableEq K] [Inhabited K] [Inhabited V]

/-- Go map lookup `lru.elem[key]` (missing key yields the zero value,
i.e. a nil pointer, modelled as `none`). -/
def mapGet (m : List (K × Nat)) (k : K) : Option Nat :=
  (m.find? fun p => p.1 = k).map (·.2)

/-- Go map assignment `lru.elem[key] = e`. -/
def mapPut (m : List (K × Nat)) (k : K) (id : Nat) : List (K × Nat) :=
  (k, id) :: m.filter fun p => ¬ p.1 = k

/-- Go map deletion `delete(lru.elem, key)`. -/
def mapDel (m : List (K × Nat)) (k : K) : List (K × Nat) :=
  m.filter fun p => ¬ p.1 = k

/-- `New(size)`: empty map, empty list, given size. -/
def New (K V : Type) (size : Int) : LRU K V :=
  { elem := [], items := [], nextId := 0, size := size }

/-- `Len()`: `lru.items.Len()` (a Go `int`). -/
def Len (s : LRU K V) : Int :=
  (s.items.length : Int)

/-- `RemoveOldest()`: if `lru.items.Back()` is nil return zeros and false;
otherwise delete the back element from map and list, invoke the callback,
and return its key and value with true. -/
def RemoveOldest (s : LRU K V) : LRU K V × K × V × Bool × List (K × V) :=
  match s.items.getLast? with
  | none => (s, default, default, false, [])
  | some nd =>
    ({ s with elem := mapDel s.elem nd.key, items := s.items.dropLast },
     nd.key, nd.value, true, [(nd.key, nd.value)])

/-- The state after `lru.elem[key] = lru.items.PushFront(&item{key, value})`
in the absent-key branch of `Set`. -/
def pushFront (s : LRU K V) (k : K) (v : V) : LRU K V :=
  { s with elem := mapPut s.elem k s.nextId,
           items := (⟨s.nextId, k, v⟩ : Node K V) :: s.items,
           nextId := s.nextId + 1 }

/-- `Set(key, value)`.  Present key: `lru.items.MoveToFront(elem)` then
`elem.Value.(*item[K, V]).value = value` — the node keeps its identity and
key, moves to the front, and gets the new value.  Absent key:
`lru.elem[key] = lru.items.PushFront(...)`, then if
`lru.size > 0 && lru.items.Len() > lru.size`, one call to `RemoveOldest`.
Returns (new state, eviction events). -/
def Set (s : LRU K V) (k : K) (v : V) : LRU K V × List (K × V) :=
  match mapGet s.elem k with
  | some id =>
    match s.items.find? fun nd => nd.id = id with
    | some nd =>
      ({ s with items := ⟨nd.id, nd.key, v⟩ :: s.items.filter fun x => ¬ x.id = id }, [])
    | none => (s, [])
  | none =>
    let s1 := pushFront s k v
    if s1.size > 0 ∧ (s1.items.length : Int) > s1.size then
      let r := RemoveOldest s1
      (r.1, r.2.2.2.2)
    else (s1, [])

/-- `Get(key)`: on a hit, `MoveToFront` and return the value with ok = true;
on a miss return the zero value and false. -/
def Get (s : LRU K V) (k : K) : LRU K V × V × Bool :=
  match mapGet s.elem k with
  | some id =>
    match s.items.find? fun nd => nd.id = id with
    | some nd =>
      ({ s with items := nd :: s.items.filter fun x => ¬ x.id = id }, nd.value, true)
    | none => (s, default, false)
  | none => (s, default, false)

/-- `Pick(key)`: the same lookup as `Get` but with no `MoveToFront`. -/
def Pick (s : LRU K V) (k : K) : LRU K V × V × Bool :=
  match mapGet s.elem k with
  | some id =>
    match s.items.find? fun nd => nd.id = id with
    | some nd => (s, nd.value, true)
    | none => (s, default, false)
  | none => (s, default, false)

/-- `Remove(key)`: on a hit, `delete(lru.elem, item.key)`,
`lru.items.Remove(elem)`, invoke the callback with the removed pair, and
return (value, true); otherwise (zero, false) and no callback. -/
def Remove (s : LRU K V) (k : K) : LRU K V × V × Bool × List (K × V) :=
  match mapGet s.elem k with
  | some id =>
    match s.items.find? fun nd => nd.id = id with
    | some nd =>
      ({ s with elem := mapDel s.elem nd.key,
                items := s.items.filter fun x => ¬ x.id = id },
       nd.value, true, [(nd.key, nd.value)])
    | none => (s, default, false, [])
  | none => (s, default, false, [])

/-- The body of `Resize`'s loop `for lru.Len() > size { lru.RemoveOldest();
evicted++ }`, run with fuel.  Returns (state, evicted count, events,
whether the loop's guard became false before the fuel ran out). -/
def resizeLoop : Nat → LRU K V → LRU K V × Nat × List (K × V) × Bool
  | 0, s => (s, 0, [], decide (Len s ≤ s.size))
  | fuel + 1, s =>
    if Len s > s.size then
      let r := RemoveOldest s
      let rest := resizeLoop fuel r.1
      (rest.1, rest.2.1 + 1, r.2.2.2.2 ++ rest.2.2.1, rest.2.2.2)
    else (s, 0, [], true)

/-- `Resize(size)`: set `lru.size = size`, then run the removal loop.
`items.length` iterations of fuel are enough whenever the Go loop
terminates; `none` means the Go loop runs forever (each further iteration
calls `RemoveOldest` on an empty cache, a no-op). -/
def Resize (s : LRU K V) (n : Int) : Option (LRU K V × Nat × List (K × V)) :=
  let s0 : LRU K V := { s with size := n }
  let r := resizeLoop s0.items.length s0
  if r.2.2.2 then some (r.1, r.2.1, r.2.2.1) else none

/-- The body of `Clear`'s loop `for lru.Len() > 0 { lru.RemoveOldest() }`,
run with fuel (`items.length` always suffices). -/
def clearLoop : Nat → LRU K V → LRU K V × List (K × V)
  | 0, s => (s, [])
  | fuel + 1, s =>
    if Len s > 0 then
      let r := RemoveOldest s
      let rest := clearLoop fuel r.1
      (rest.1, r.2.2.2.2 ++ rest.2)
    else (s, [])

/-- `Clear()`: repeatedly `RemoveOldest` until empty. -/
def Clear (s : LRU K V) : LRU K V × List (K × V) :=
  clearLoop s.items.length s

/-- One front-to-back traversal step list of `All`: the entries on which
`yield` is called, in order (`yield` returning false stops the walk after
that entry). -/
def allVisit (yield : K → V → Bool) : List (Node K V) → List (K × V)
  | [] => []
  | nd :: rest =>
    if yield nd.key nd.value then (nd.key, nd.value) :: allVisit yield rest
    else [(nd.key, nd.value)]

/-- `All()`: iterate from `lru.items.Front()` following `Next`, i.e. the
front-to-back (newest-to-oldest) order.  State is not mutated. -/
def All (s : LRU K V) (yield : K → V → Bool) : List (K × V) :=
  allVisit yield s.items

/-- `Backward()`: iterate from `lru.items.Back()` following `Prev`, i.e.
back-to-front (oldest-to-newest) order. -/
def Backward (s : LRU K V) (yield : K → V → Bool) : List (K × V) :=
  allVisit yield s.items.reverse

/-- The yield function of a full traversal (always continue). -/
def contYield : K → V → Bool := fun _ _ => true

/-- The public operations, for reachability statements. -/
inductive Op (K V : Type) where
  | set (k : K) (v : V)
  | get (k : K)
  | pick (k : K)
  | remove (k : K)
  | removeOldest
  | resize (n : Int)
  | clear

/-- The state after one operation.  For a `resize` whose Go loop does not
terminate, the state reached is still the loop's fixed point (the drained
cache), which is what `resizeLoop` returns when the fuel runs out. -/
def applyOp (s : LRU K V) : Op K V → LRU K V
  | .set k v => (Set s k v).1
  | .get k => (Get s k).1
  | .pick k => (Pick s k).1
  | .remove k => (Remove s k).1
  | .removeOldest => (RemoveOldest s).1
  | .resize n => (resizeLoop ({ s with size := n } : LRU K V).items.length { s with size := n }).1
  | .clear => (Clear s).1

/-- The state after a sequence of operations. -/
def run (s : LRU K V) (ops : List (Op K V)) : LRU K V :=
  ops.foldl applyOp s

/-- The index/recency-sequence consistency invariant: map keys are unique,
node ids are unique, every map entry points at a live node with the same
key, every node's (key, pointer) pair is in the map, and all allocated ids
are below the freshness counter. -/
def Inv (s : LRU K V) : Prop :=
  (s.elem.map Prod.fst).Nodup ∧
  (s.items.map Node.id).Nodup ∧
  (∀ p ∈ s.elem, ∃ nd ∈ s.items, nd.id = p.2 ∧ nd.key = p.1) ∧
  (∀ nd ∈ s.items, (nd.key, nd.id) ∈ s.elem) ∧
  (∀ nd ∈ s.items, nd.id < s.nextId)

/-- The invariant is decidable, so it can be checked on concrete states. -/
instance decidableInv (s : LRU K V) : Decidable (Inv s) := by
  unfold Inv
  exact inferInstance

section Helpers

/-- Members of a list with `Nodup` image under `f` are separated by `f`. -/
theorem nodup_map_mem_inj {α β : Type} {f : α → β} {l : List α}
    (h : (l.map f).Nodup) {a b : α} (ha : a ∈ l) (hb : b ∈ l)
    (hf : f a = f b) : a = b := by
  induction l with
  | nil => cases ha
  | cons x xs ih =>
    simp only [List.map_cons, List.nodup_cons] at h
    rcases List.mem_cons.1 ha with rfl | ha' <;>
      rcases List.mem_cons.1 hb with rfl | hb'
    · rfl
    · exact absurd (hf ▸ List.mem_map_of_mem f hb') h.1
    · exact absurd (hf ▸ List.mem_map_of_mem f ha') h.1
    · exact ih h.2 ha' hb'

/-- Filtering out the one element found by `find?` shortens the list by
exactly one, when the image under `f` is duplicate-free and the predicate
tests `f`. -/
theorem length_filter_find? {α β : Type} [DecidableEq β] {f : α → β} {l : List α}
    {b : β} {a : α} (hn : (l.map f).Nodup)
    (hf : l.find? (fun x => f x = b) = some a) :
    (l.filter fun x => ¬ f x = b).length + 1 = l.length := by
  induction l with
  | nil => simp at hf
  | cons x xs ih =>
    simp only [List.map_cons, List.nodup_cons] at hn
    by_cases hx : f x = b
    · have : ∀ y ∈ xs, ¬ f y = b := by
        intro y hy hyb
        exact hn.1 (hx ▸ hyb ▸ List.mem_map_of_mem f hy)
      rw [List.filter_cons_of_neg (by simpa using hx),
        List.filter_eq_self.2 (by simpa using this)]
      simp
    · rw [List.find?_cons_of_neg _ (by simpa using hx)] at hf
      rw [List.filter_cons_of_pos (by simpa using hx)]
      simpa using ih hn.2 hf

/-- `find?` by one id commutes with filtering out a different id. -/
theorem find?_filter_ne_id {l : List (Node K V)} {i j : Nat} (hij : ¬ j = i) :
    ((l.filter fun x => ¬ x.id = i).find? fun x => x.id = j) =
      l.find? fun x => x.id = j := by
  induction l with
  | nil => rfl
  | cons x xs ih =>
    by_cases hx : x.id = i
    · rw [List.filter_cons_of_neg (by simpa using hx),
        List.find?_cons_of_neg _ (by simp [hx]; exact fun he => hij he.symm)]
      exact ih
    · rw [List.filter_cons_of_pos (by simpa using hx)]
      by_cases hj : x.id = j
      · rw [List.find?_cons_of_pos _ (by simpa using hj),
          List.find?_cons_of_pos _ (by simpa using hj)]
      · rw [List.find?_cons_of_neg _ (by simpa using hj),
          List.find?_cons_of_neg _ (by simpa using hj)]
        exact ih

/-- A hit in the map yields a pair of the map with that key. -/
theorem mapGet_some_mem {m : List (K × Nat)} {k : K} {i : Nat}
    (h : mapGet m k = some i) : (k, i) ∈ m := by
  unfold mapGet at h
  rcases Option.map_eq_some'.1 h with ⟨p, hp, rfl⟩
  have hk : p.1 = k := by simpa using List.find?_some hp
  have := List.mem_of_find?_eq_some hp
  rwa [← hk]

/-- A miss in the map means no pair of the map has that key. -/
theorem mapGet_none_not_mem {m : List (K × Nat)} {k : K}
    (h : mapGet m k = none) : ∀ i, (k, i) ∉ m := by
  intro i hmem
  unfold mapGet at h
  have := List.find?_eq_none.1 (Option.map_eq_none'.1 h) _ hmem
  simp at this

/-- After deleting a key, looking it up misses. -/
theorem mapGet_mapDel_self (m : List (K × Nat)) (k : K) :
    mapGet (mapDel m k) k = none := by
  unfold mapGet mapDel
  rw [Option.map_eq_none', List.find?_eq_none]
  intro p hp
  simpa using (List.mem_filter.1 hp).2

/-- Deleting one key does not affect lookups of another key. -/
theorem mapGet_mapDel_other (m : List (K × Nat)) {k k' : K} (h : ¬ k' = k) :
    mapGet (mapDel m k) k' = mapGet m k' := by
  unfold mapGet mapDel
  congr 1
  induction m with
  | nil => rfl
  | cons p ps ih =>
    by_cases hp : p.1 = k
    · rw [List.filter_cons_of_neg (by simpa using hp),
        List.find?_cons_of_neg _ (by simp [hp]; exact fun he => h he.symm)]
      exact ih
    · rw [List.filter_cons_of_pos (by simpa using hp)]
      by_cases hk' : p.1 = k'
      · rw [List.find?_cons_of_pos _ (by simpa using hk'),
          List.find?_cons_of_pos _ (by simpa using hk')]
      · rw [List.find?_cons_of_neg _ (by simpa using hk'),
          List.find?_cons_of_neg _ (by simpa using hk')]
        exact ih

end Helpers

section Equations

theorem RemoveOldest_empty {s : LRU K V} (h : s.items.getLast? = none) :
    RemoveOldest s = (s, default, default, false, []) := by
  unfold RemoveOldest; rw [h]

theorem RemoveOldest_back {s : LRU K V} {nd : Node K V}
    (h : s.items.getLast? = some nd) :
    RemoveOldest s =
      ({ s with elem := mapDel s.elem nd.key, items := s.items.dropLast },
       nd.key, nd.value, true, [(nd.key, nd.value)]) := by
  unfold RemoveOldest; rw [h]

theorem Get_hit {s : LRU K V} {k : K} {i : Nat} {nd : Node K V}
    (hm : mapGet s.elem k = some i)
    (hf : s.items.find? (fun x => x.id = i) = some nd) :
    Get s k =
      ({ s with items := nd :: s.items.filter fun x => ¬ x.id = i }, nd.value, true) := by
  have h2 : Get s k =
      match s.items.find? (fun x => x.id = i) with
      | some nd => ({ s with items := nd :: s.items.filter fun x => ¬ x.id = i },
          nd.value, true)
      | none => (s, default, false) := by
    unfold Get; rw [hm]
  rw [h2, hf]

theorem Get_hit_dangling {s : LRU K V} {k : K} {i : Nat}
    (hm : mapGet s.elem k = some i)
    (hf : s.items.find? (fun x => x.id = i) = none) :
    Get s k = (s, default, false) := by
  have h2 : Get s k =
      match s.items.find? (fun x => x.id = i) with
      | some nd => ({ s with items := nd :: s.items.filter fun x => ¬ x.id = i },
          nd.value, true)
      | none => (s, default, false) := by
    unfold Get; rw [hm]
  rw [h2, hf]

theorem Get_miss {s : LRU K V} {k : K} (hm : mapGet s.elem k = none) :
    Get s k = (s, default, false) := by
  unfold Get; rw [hm]

theorem Pick_hit {s : LRU K V} {k : K} {i : Nat} {nd : Node K V}
    (hm : mapGet s.elem k = some i)
    (hf : s.items.find? (fun x => x.id = i) = some nd) :
    Pick s k = (s, nd.value, true) := by
  have h2 : Pick s k =
      match s.items.find? (fun x => x.id = i) with
      | some nd => (s, nd.value, true)
      | none => (s, default, false) := by
    unfold Pick; rw [hm]
  rw [h2, hf]

theorem Pick_hit_dangling {s : LRU K V} {k : K} {i : Nat}
    (hm : mapGet s.elem k = some i)
    (hf : s.items.find? (fun x => x.id = i) = none) :
    Pick s k = (s, default, false) := by
  have h2 : Pick s k =
      match s.items.find? (fun x => x.id = i) with
      | some nd => (s, nd.value, true)
      | none => (s, default, false) := by
    unfold Pick; rw [hm]
  rw [h2, hf]

theorem Pick_miss {s : LRU K V} {k : K} (hm : mapGet s.elem k = none) :
    Pick s k = (s, default, false) := by
  unfold Pick; rw [hm]

theorem Remove_hit {s : LRU K V} {k : K} {i : Nat} {nd : Node K V}
    (hm : mapGet s.elem k = some i)
    (hf : s.items.find? (fun x => x.id = i) = some nd) :
    Remove s k =
      ({ s with elem := mapDel s.elem nd.key,
                items := s.items.filter fun x => ¬ x.id = i },
       nd.value, true, [(nd.key, nd.value)]) := by
  have h2 : Remove s k =
      match s.items.find? (fun x => x.id = i) with
      | some nd =>
        ({ s with elem := mapDel s.elem nd.key,
                  items := s.items.filter fun x => ¬ x.id = i },
         nd.value, true, [(nd.key, nd.value)])
      | none => (s, default, false, []) := by
    unfold Remove; rw [hm]
  rw [h2, hf]

theorem Remove_hit_dangling {s : LRU K V} {k : K} {i : Nat}
    (hm : mapGet s.elem k = some i)
    (hf : s.items.find? (fun x => x.id = i) = none) :
    Remove s k = (s, default, false, []) := by
  have h2 : Remove s k =
      match s.items.find? (fun x => x.id = i) with
      | some nd =>
        ({ s with elem := mapDel s.elem nd.key,
                  items := s.items.filter fun x => ¬ x.id = i },
         nd.value, true, [(nd.key, nd.value)])
      | none => (s, default, false, []) := by
    unfold Remove; rw [hm]
  rw [h2, hf]

theorem Remove_miss {s : LRU K V} {k : K} (hm : mapGet s.elem k = none) :
    Remove s k = (s, default, false, []) := by
  unfold Remove; rw [hm]

theorem Set_hit {s : LRU K V} {k : K} (v : V) {i : Nat} {nd : Node K V}
    (hm : mapGet s.elem k = some i)
    (hf : s.items.find? (fun x => x.id = i) = some nd) :
    Set s k v =
      ({ s with items := ⟨nd.id, nd.key, v⟩ :: s.items.filter fun x => ¬ x.id = i },
       []) := by
  have h2 : Set s k v =
      match s.items.find? (fun x => x.id = i) with
      | some nd =>
        ({ s with items := ⟨nd.id, nd.key, v⟩ :: s.items.filter fun x => ¬ x.id = i },
         [])
      | none => (s, []) := by
    unfold Set; rw [hm]
  rw [h2, hf]

theorem Set_hit_dangling {s : LRU K V} {k : K} (v : V) {i : Nat}
    (hm : mapGet s.elem k = some i)
    (hf : s.items.find? (fun x => x.id = i) = none) :
    Set s k v = (s, []) := by
  have h2 : Set s k v =
      match s.items.find? (fun x => x.id = i) with
      | some nd =>
        ({ s with items := ⟨nd.id, nd.key, v⟩ :: s.items.filter fun x => ¬ x.id = i },
         [])
      | none => (s, []) := by
    unfold Set; rw [hm]
  rw [h2, hf]

theorem Set_miss_evict {s : LRU K V} {k : K} (v : V)
    (hm : mapGet s.elem k = none)
    (hc : (pushFront s k v).size > 0 ∧
      ((pushFront s k v).items.length : Int) > (pushFront s k v).size) :
    Set s k v =
      ((RemoveOldest (pushFront s k v)).1,
       (RemoveOldest (pushFront s k v)).2.2.2.2) := by
  unfold Set; rw [hm]; simp only [if_pos hc]

theorem Set_miss_noevict {s : LRU K V} {k : K} (v : V)
    (hm : mapGet s.elem k = none)
    (hc : ¬ ((pushFront s k v).size > 0 ∧
      ((pushFront s k v).items.length : Int) > (pushFront s k v).size)) :
    Set s k v = (pushFront s k v, []) := by
  unfold Set; rw [hm]; simp only [if_neg hc]

theorem pushFront_size (s : LRU K V) (k : K) (v : V) :
    (pushFront s k v).size = s.size := rfl

theorem pushFront_items (s : LRU K V) (k : K) (v : V) :
    (pushFront s k v).items = (⟨s.nextId, k, v⟩ : Node K V) :: s.items := rfl

end Equations

section InvariantPreservation

/-- Under the invariant, two live nodes with the same key coincide. -/
theorem inv_key_inj {s : LRU K V} (h : Inv s) {a b : Node K V}
    (ha : a ∈ s.items) (hb : b ∈ s.items) (hk : a.key = b.key) : a = b := by
  obtain ⟨hkeys, hids, _, hsound, _⟩ := h
  have hpa := hsound a ha
  have hpb := hsound b hb
  have hpair : (a.key, a.id) = (b.key, b.id) :=
    nodup_map_mem_inj hkeys hpa hpb (by simpa using hk)
  exact nodup_map_mem_inj hids ha hb (congrArg Prod.snd hpair)

/-- Under the invariant, a map hit followed by the id lookup in the list
recovers a node carrying the looked-up key. -/
theorem inv_find_key {s : LRU K V} (h : Inv s) {k : K} {i : Nat} {nd : Node K V}
    (hm : mapGet s.elem k = some i)
    (hf : s.items.find? (fun x => x.id = i) = some nd) :
    nd.key = k ∧ nd.id = i := by
  obtain ⟨_, hids, hmap, _, _⟩ := h
  have hndi : nd.id = i := by simpa using List.find?_some hf
  have hmem : nd ∈ s.items := List.mem_of_find?_eq_some hf
  obtain ⟨m, hmmem, hmi, hmk⟩ := hmap _ (mapGet_some_mem hm)
  have : nd = m := nodup_map_mem_inj hids hmem hmmem (by rw [hndi, hmi])
  exact ⟨by rw [this, hmk], hndi⟩

/-- Under the invariant, a map hit always finds its node in the list. -/
theorem inv_find_isSome {s : LRU K V} (h : Inv s) {k : K} {i : Nat}
    (hm : mapGet s.elem k = some i) :
    ∃ nd, s.items.find? (fun x => x.id = i) = some nd := by
  obtain ⟨_, _, hmap, _, _⟩ := h
  obtain ⟨m, hmmem, hmi, _⟩ := hmap _ (mapGet_some_mem hm)
  have : (s.items.find? fun x => x.id = i).isSome =
      true :=
    List.find?_isSome.2 ⟨m, hmmem, by simpa using hmi⟩
  exact Option.isSome_iff_exists.1 this

/-- Moving a node to the front of the list (optionally replacing its
value) preserves the invariant.  Covers `Get` and the present-key branch
of `Set`. -/
theorem inv_promote {s : LRU K V} (h : Inv s) {k : K} {i : Nat} {nd : Node K V}
    (hm : mapGet s.elem k = some i)
    (hf : s.items.find? (fun x => x.id = i) = some nd) (v' : V) :
    Inv { s with items := ⟨nd.id, nd.key, v'⟩ :: s.items.filter fun x => ¬ x.id = i } := by
  obtain ⟨hkeys, hids, hmap, hsound, hfresh⟩ := h
  have hndi : nd.id = i := by simpa using List.find?_some hf
  have hmem : nd ∈ s.items := List.mem_of_find?_eq_some hf
  have hsub : List.Sublist (s.items.filter fun x => ¬ x.id = i) s.items :=
    List.filter_sublist _
  refine ⟨hkeys, ?_, ?_, ?_, ?_⟩
  · refine List.nodup_cons.2 ⟨?_, ((hsub.map Node.id).nodup hids)⟩
    intro hin
    obtain ⟨x, hx, hxi⟩ := List.mem_map.1 hin
    have hx2 : ¬ x.id = i := by simpa using (List.mem_filter.1 hx).2
    exact hx2 (hxi.trans hndi)
  · intro p hp
    obtain ⟨m, hmmem, hmi, hmk⟩ := hmap p hp
    by_cases hcase : m.id = i
    · have hmnd : m = nd := nodup_map_mem_inj hids hmmem hmem (by rw [hcase, hndi])
      refine ⟨⟨nd.id, nd.key, v'⟩, List.mem_cons_self _ _, ?_, ?_⟩
      · show nd.id = p.2
        rw [hndi, ← hcase, hmi]
      · show nd.key = p.1
        rw [← hmnd, hmk]
    · exact ⟨m, List.mem_cons_of_mem _ (List.mem_filter.2 ⟨hmmem, by simpa using hcase⟩),
        hmi, hmk⟩
  · intro x hx
    rcases List.mem_cons.1 hx with rfl | hx'
    · simpa using hsound nd hmem
    · exact hsound x (hsub.subset hx')
  · intro x hx
    rcases List.mem_cons.1 hx with rfl | hx'
    · simpa using hfresh nd hmem
    · exact hfresh x (hsub.subset hx')

/-- Inserting a fresh node at the front for an absent key preserves the
invariant (the absent-key branch of `Set`, before any eviction). -/
theorem inv_pushFront {s : LRU K V} (h : Inv s) {k : K} (v : V)
    (hm : mapGet s.elem k = none) : Inv (pushFront s k v) := by
  obtain ⟨hkeys, hids, hmap, hsound, hfresh⟩ := h
  have hesub : List.Sublist (s.elem.filter fun p => ¬ p.1 = k) s.elem :=
    List.filter_sublist _
  refine ⟨?_, ?_, ?_, ?_, ?_⟩
  · refine List.nodup_cons.2 ⟨?_, (hesub.map Prod.fst).nodup hkeys⟩
    intro hin
    obtain ⟨p, hp, hpk⟩ := List.mem_map.1 hin
    have hp2 : ¬ p.1 = k := by simpa using (List.mem_filter.1 hp).2
    exact hp2 hpk
  · refine List.nodup_cons.2 ⟨?_, hids⟩
    intro hin
    obtain ⟨x, hx, hxi⟩ := List.mem_map.1 hin
    exact absurd hxi (Nat.ne_of_lt (hfresh x hx))
  · intro p hp
    rcases List.mem_cons.1 hp with rfl | hp'
    · exact ⟨⟨s.nextId, k, v⟩, List.mem_cons_self _ _, rfl, rfl⟩
    · obtain ⟨m, hmmem, hmi, hmk⟩ := hmap p (hesub.subset hp')
      exact ⟨m, List.mem_cons_of_mem _ hmmem, hmi, hmk⟩
  · intro x hx
    rcases List.mem_cons.1 hx with rfl | hx'
    · exact List.mem_cons_self _ _
    · have hxk : ¬ x.key = k := fun he =>
        mapGet_none_not_mem hm x.id (he ▸ hsound x hx')
      exact List.mem_cons_of_mem _
        (List.mem_filter.2 ⟨hsound x hx', by simpa using hxk⟩)
  · intro x hx
    rcases List.mem_cons.1 hx with rfl | hx'
    · exact Nat.lt_succ_self _
    · exact Nat.lt_succ_of_lt (hfresh x hx')

/-- Removing the back node (map delete + list unlink) preserves the
invariant.  Covers `RemoveOldest` and therefore `Set`'s eviction,
`Resize` and `Clear`. -/
theorem inv_dropOldest {s : LRU K V} (h : Inv s) {nd : Node K V}
    (hl : s.items.getLast? = some nd) :
    Inv { s with elem := mapDel s.elem nd.key, items := s.items.dropLast } := by
  obtain ⟨hkeys, hids, hmap, hsound, hfresh⟩ := h
  have hinv : Inv s := ⟨hkeys, hids, hmap, hsound, hfresh⟩
  have hsplit : s.items.dropLast ++ [nd] = s.items :=
    List.dropLast_append_getLast? nd hl
  have hndmem : nd ∈ s.items := by
    rw [← hsplit]; exact List.mem_append_right _ (List.mem_singleton_self _)
  have hdsub : List.Sublist s.items.dropLast s.items := by
    conv_rhs => rw [← hsplit]
    exact List.sublist_append_left _ _
  have hesub : List.Sublist (s.elem.filter fun p => ¬ p.1 = nd.key) s.elem :=
    List.filter_sublist _
  have hndrop : ∀ x ∈ s.items.dropLast, ¬ x = nd := by
    intro x hx hxe
    have h2 : ((s.items.dropLast ++ [nd]).map Node.id).Nodup := by
      rw [hsplit]; exact hids
    rw [List.map_append] at h2
    have hdisj := List.disjoint_of_nodup_append h2
    exact hdisj (hxe ▸ List.mem_map_of_mem Node.id hx) (by simp)
  refine ⟨(hesub.map Prod.fst).nodup hkeys, (hdsub.map Node.id).nodup hids, ?_, ?_, ?_⟩
  · intro p hp
    have hpk : ¬ p.1 = nd.key := by simpa using (List.mem_filter.1 hp).2
    obtain ⟨m, hmmem, hmi, hmk⟩ := hmap p (hesub.subset hp)
    have hmnd : ¬ m = nd := fun he => hpk (by rw [← hmk, he])
    have hmem2 : m ∈ s.items.dropLast ++ [nd] := by rw [hsplit]; exact hmmem
    rcases List.mem_append.1 hmem2 with hm' | hm'
    · exact ⟨m, hm', hmi, hmk⟩
    · exact absurd (List.mem_singleton.1 hm') hmnd
  · intro x hx
    have hxmem : x ∈ s.items := hdsub.subset hx
    have hxk : ¬ x.key = nd.key := fun he =>
      hndrop x hx (inv_key_inj hinv hxmem hndmem he)
    exact List.mem_filter.2 ⟨hsound x hxmem, by simpa using hxk⟩
  · intro x hx
    exact hfresh x (hdsub.subset hx)

/-- `RemoveOldest` preserves the invariant. -/
theorem inv_RemoveOldest {s : LRU K V} (h : Inv s) : Inv (RemoveOldest s).1 := by
  cases hl : s.items.getLast? with
  | none => rw [RemoveOldest_empty hl]; exact h
  | some nd => rw [RemoveOldest_back hl]; exact inv_dropOldest h hl

/-- `Set` preserves the invariant. -/
theorem inv_Set {s : LRU K V} (h : Inv s) (k : K) (v : V) : Inv (Set s k v).1 := by
  cases hm : mapGet s.elem k with
  | some i =>
    cases hf : s.items.find? fun x => x.id = i with
    | none => rw [Set_hit_dangling v hm hf]; exact h
    | some nd => rw [Set_hit v hm hf]; exact inv_promote h hm hf v
  | none =>
    by_cases hc : (pushFront s k v).size > 0 ∧
        ((pushFront s k v).items.length : Int) > (pushFront s k v).size
    · rw [Set_miss_evict v hm hc]
      exact inv_RemoveOldest (inv_pushFront h v hm)
    · rw [Set_miss_noevict v hm hc]
      exact inv_pushFront h v hm

/-- `Get` preserves the invariant. -/
theorem inv_Get {s : LRU K V} (h : Inv s) (k : K) : Inv (Get s k).1 := by
  cases hm : mapGet s.elem k with
  | some i =>
    cases hf : s.items.find? fun x => x.id = i with
    | none => rw [Get_hit_dangling hm hf]; exact h
    | some nd => rw [Get_hit hm hf]; exact inv_promote h hm hf nd.value
  | none => rw [Get_miss hm]; exact h

/-- `Pick` does not change the state at all. -/
theorem Pick_state (s : LRU K V) (k : K) : (Pick s k).1 = s := by
  cases hm : mapGet s.elem k with
  | some i =>
    cases hf : s.items.find? fun x => x.id = i with
    | none => rw [Pick_hit_dangling hm hf]
    | some nd => rw [Pick_hit hm hf]
  | none => rw [Pick_miss hm]

/-- `Remove` preserves the invariant. -/
theorem inv_Remove {s : LRU K V} (h : Inv s) (k : K) : Inv (Remove s k).1 := by
  cases hm : mapGet s.elem k with
  | none => rw [Remove_miss hm]; exact h
  | some i =>
    cases hf : s.items.find? fun x => x.id = i with
    | none => rw [Remove_hit_dangling hm hf]; exact h
    | some nd =>
      rw [Remove_hit hm hf]
      obtain ⟨hkeys, hids, hmap, hsound, hfresh⟩ := h
      have hinv : Inv s := ⟨hkeys, hids, hmap, hsound, hfresh⟩
      have hndi : nd.id = i := by simpa using List.find?_some hf
      have hndmem : nd ∈ s.items := List.mem_of_find?_eq_some hf
      have hisub : List.Sublist (s.items.filter fun x => ¬ x.id = i) s.items :=
        List.filter_sublist _
      have hesub : List.Sublist (s.elem.filter fun p => ¬ p.1 = nd.key) s.elem :=
        List.filter_sublist _
      refine ⟨(hesub.map Prod.fst).nodup hkeys, (hisub.map Node.id).nodup hids,
        ?_, ?_, ?_⟩
      · intro p hp
        have hpk : ¬ p.1 = nd.key := by simpa using (List.mem_filter.1 hp).2
        obtain ⟨m, hmmem, hmi, hmk⟩ := hmap p (hesub.subset hp)
        have hmni : ¬ m.id = i := by
          intro he
          have : m = nd := nodup_map_mem_inj hids hmmem hndmem (by rw [he, hndi])
          exact hpk (by rw [← hmk, this])
        exact ⟨m, List.mem_filter.2 ⟨hmmem, by simpa using hmni⟩, hmi, hmk⟩
      · intro x hx
        have hxmem : x ∈ s.items := hisub.subset hx
        have hxi : ¬ x.id = i := by simpa using (List.mem_filter.1 hx).2
        have hxk : ¬ x.key = nd.key := fun he =>
          hxi (by rw [inv_key_inj hinv hxmem hndmem he, hndi])
        exact List.mem_filter.2 ⟨hsound x hxmem, by simpa using hxk⟩
      · intro x hx
        exact hfresh x (hisub.subset hx)

/-- The resize loop preserves the invariant. -/
theorem inv_resizeLoop {s : LRU K V} (h : Inv s) (fuel : Nat) :
    Inv (resizeLoop fuel s).1 := by
  induction fuel generalizing s with
  | zero => exact h
  | succ n ih =>
    unfold resizeLoop
    by_cases hc : Len s > s.size
    · rw [if_pos hc]
      exact ih (inv_RemoveOldest h)
    · rw [if_neg hc]
      exact h

/-- The clear loop preserves the invariant. -/
theorem inv_clearLoop {s : LRU K V} (h : Inv s) (fuel : Nat) :
    Inv (clearLoop fuel s).1 := by
  induction fuel generalizing s with
  | zero => exact h
  | succ n ih =>
    unfold clearLoop
    by_cases hc : Len s > 0
    · rw [if_pos hc]
      exact ih (inv_RemoveOldest h)
    · rw [if_neg hc]
      exact h

/-- Resizing only changes the capacity field, so it keeps the invariant. -/
theorem inv_setSize {s : LRU K V} (h : Inv s) (n : Int) :
    Inv { s with size := n } :=
  ⟨h.1, h.2.1, h.2.2.1, h.2.2.2.1, h.2.2.2.2⟩

/-- Every single operation preserves the invariant. -/
theorem inv_applyOp {s : LRU K V} (h : Inv s) (op : Op K V) : Inv (applyOp s op) := by
  cases op with
  | set k v => exact inv_Set h k v
  | get k => exact inv_Get h k
  | pick k =>
    show Inv (Pick s k).1
    rw [Pick_state s k]
    exact h
  | remove k => exact inv_Remove h k
  | removeOldest => exact inv_RemoveOldest h
  | resize n => exact inv_resizeLoop (inv_setSize h n) _
  | clear => exact inv_clearLoop h _

/-- The invariant holds in the initial state. -/
theorem inv_New (size : Int) : Inv (New K V size) := by
  refine ⟨List.nodup_nil, List.nodup_nil, ?_, ?_, ?_⟩ <;> intro x hx <;> cases hx

/-- The invariant holds in every reachable state. -/
theorem inv_run {s : LRU K V} (h : Inv s) (ops : List (Op K V)) : Inv (run s ops) := by
  induction ops generalizing s with
  | nil => exact h
  | cons op rest ih => exact ih (inv_applyOp h op)

/-- Under the invariant, the index and the recency list have the same
size. -/
theorem inv_length {s : LRU K V} (h : Inv s) : s.elem.length = s.items.length := by
  obtain ⟨hkeys, hids, hmap, hsound, _⟩ := h
  set pairs : List (K × Nat) := s.items.map fun nd => (nd.key, nd.id) with hpairs
  have hsub1 : s.elem ⊆ pairs := by
    intro p hp
    obtain ⟨m, hmmem, hmi, hmk⟩ := hmap p hp
    have : p = (m.key, m.id) := by
      cases p; simp_all
    rw [this]
    exact List.mem_map_of_mem _ hmmem
  have hsub2 : pairs ⊆ s.elem := by
    intro q hq
    obtain ⟨m, hmmem, rfl⟩ := List.mem_map.1 hq
    exact hsound m hmmem
  have hn1 : s.elem.Nodup := List.Nodup.of_map Prod.fst hkeys
  have hn2 : pairs.Nodup := by
    refine List.Nodup.of_map Prod.snd ?_
    rw [hpairs, List.map_map]
    exact hids
  have h1 := (List.subperm_of_subset hn1 hsub1).length_le
  have h2 := (List.subperm_of_subset hn2 hsub2).length_le
  have hlen : pairs.length = s.items.length := by rw [hpairs, List.length_map]
  omega

end InvariantPreservation

section OperationFacts

/-- Filtering out a found element strictly shortens a list. -/
theorem length_filter_lt_of_find? {α : Type} {p : α → Bool} {l : List α} {a : α}
    (hf : l.find? p = some a) :
    (l.filter fun x => ¬ p x = true).length < l.length := by
  induction l with
  | nil => simp at hf
  | cons x xs ih =>
    by_cases hx : p x = true
    · rw [List.filter_cons_of_neg (by simpa using hx)]
      exact Nat.lt_succ_of_le (List.length_filter_le _ _)
    · rw [List.find?_cons_of_neg _ (by simpa using hx)] at hf
      rw [List.filter_cons_of_pos (by simpa using hx)]
      simpa using ih hf

/-- Prepending to a non-empty list does not change its last element. -/
theorem getLast?_cons_of_ne_nil {α : Type} (a : α) {l : List α} (h : l ≠ []) :
    (a :: l).getLast? = l.getLast? := by
  cases l with
  | nil => exact absurd rfl h
  | cons b t => exact List.getLast?_cons_cons

/-- A full traversal (`yield` always true) visits exactly the node list in
order. -/
theorem allVisit_cont (l : List (Node K V)) :
    allVisit (contYield (K := K) (V := V)) l = l.map fun nd => (nd.key, nd.value) := by
  induction l with
  | nil => rfl
  | cons nd rest ih =>
    simp [allVisit, contYield, ih]

/-- With duplicate-free keys, membership determines the map lookup. -/
theorem mapGet_of_mem_nodup {m : List (K × Nat)} (hn : (m.map Prod.fst).Nodup)
    {k : K} {i : Nat} (hmem : (k, i) ∈ m) : mapGet m k = some i := by
  induction m with
  | nil => cases hmem
  | cons p ps ih =>
    simp only [List.map_cons, List.nodup_cons] at hn
    rcases List.mem_cons.1 hmem with rfl | hmem'
    · unfold mapGet
      rw [List.find?_cons_of_pos _ (by simp)]
      rfl
    · have hpk : ¬ p.1 = k := by
        intro he
        exact hn.1 (he ▸ List.mem_map_of_mem Prod.fst hmem')
      unfold mapGet
      rw [List.find?_cons_of_neg _ (by simpa using hpk)]
      exact ih hn.2 hmem'

/-- Under the invariant, the map is injective: two keys mapped to the same
element pointer coincide. -/
theorem inv_mapGet_inj {s : LRU K V} (h : Inv s) {k k' : K} {i : Nat}
    (h1 : mapGet s.elem k = some i) (h2 : mapGet s.elem k' = some i) : k = k' := by
  obtain ⟨hkeys, hids, hmap, _, _⟩ := h
  obtain ⟨m1, hm1, hi1, hk1⟩ := hmap _ (mapGet_some_mem h1)
  obtain ⟨m2, hm2, hi2, hk2⟩ := hmap _ (mapGet_some_mem h2)
  have hk1' : m1.key = k := by simpa using hk1
  have hk2' : m2.key = k' := by simpa using hk2
  have hi1' : m1.id = i := by simpa using hi1
  have hi2' : m2.id = i := by simpa using hi2
  have : m1 = m2 := nodup_map_mem_inj hids hm1 hm2 (by rw [hi1', hi2'])
  rw [← hk1', ← hk2', this]

/-- `Set` never changes the capacity field. -/
theorem Set_size (s : LRU K V) (k : K) (v : V) : (Set s k v).1.size = s.size := by
  cases hm : mapGet s.elem k with
  | some i =>
    cases hf : s.items.find? fun x => x.id = i with
    | none => rw [Set_hit_dangling v hm hf]
    | some nd => rw [Set_hit v hm hf]
  | none =>
    by_cases hc : (pushFront s k v).size > 0 ∧
        ((pushFront s k v).items.length : Int) > (pushFront s k v).size
    · rw [Set_miss_evict v hm hc]
      cases hl : (pushFront s k v).items.getLast? with
      | none => simp [pushFront_items] at hl
      | some old =>
        rw [RemoveOldest_back hl]
        rfl
    · rw [Set_miss_noevict v hm hc]
      rfl

/-- `Set` never increases the length beyond the greater of the old length
and the capacity bound; with a positive capacity the length stays at or
below the bound. -/
theorem Len_Set_le {s : LRU K V} {N : Int} (hsz : s.size = N) (hN : 0 < N)
    (hlen : Len s ≤ N) (k : K) (v : V) : Len (Set s k v).1 ≤ N := by
  cases hm : mapGet s.elem k with
  | some i =>
    cases hf : s.items.find? fun x => x.id = i with
    | none => rw [Set_hit_dangling v hm hf]; exact hlen
    | some nd =>
      rw [Set_hit v hm hf]
      have hlt := length_filter_lt_of_find? hf
      unfold Len at hlen ⊢
      simp only [List.length_cons]
      have : (s.items.filter fun x => ¬ x.id = i).length <
          s.items.length := by simpa using hlt
      omega
  | none =>
    by_cases hc : (pushFront s k v).size > 0 ∧
        ((pushFront s k v).items.length : Int) > (pushFront s k v).size
    · rw [Set_miss_evict v hm hc]
      cases hl : (pushFront s k v).items.getLast? with
      | none => simp [pushFront_items] at hl
      | some old =>
        rw [RemoveOldest_back hl]
        have hdl : (pushFront s k v).items.dropLast.length =
            (pushFront s k v).items.length - 1 := List.length_dropLast _
        show ((pushFront s k v).items.dropLast.length : Int) ≤ N
        unfold Len at hlen
        rw [hdl, pushFront_items]
        simp only [List.length_cons]
        push_cast
        omega
    · rw [Set_miss_noevict v hm hc]
      show ((pushFront s k v).items.length : Int) ≤ N
      rcases not_and_or.1 hc with hc1 | hc1
      · rw [pushFront_size, hsz] at hc1
        exact absurd hN (by simpa using hc1)
      · have h2 := not_lt.1 hc1
        rw [pushFront_size, hsz] at h2
        exact h2

/-- A run of bare `Set` calls, for the capacity invariant. -/
def runSets (s : LRU K V) (ops : List (K × V)) : LRU K V :=
  ops.foldl (fun t p => (Set t p.1 p.2).1) s

/-- Capacity and the length bound are maintained along any run of `Set`
calls. -/
theorem runSets_size_le {N : Int} (hN : 0 < N) (ops : List (K × V))
    {s : LRU K V} (hsz : s.size = N) (hlen : Len s ≤ N) :
    (runSets s ops).size = N ∧ Len (runSets s ops) ≤ N := by
  induction ops generalizing s with
  | nil => exact ⟨hsz, hlen⟩
  | cons p rest ih =>
    exact ih ((Set_size s p.1 p.2).trans hsz) (Len_Set_le hsz hN hlen p.1 p.2)

/-- Unfolding lemma for `Len`. -/
theorem Len_eq (s : LRU K V) : Len s = (s.items.length : Int) := rfl

/-- Step equation of the clear loop when the cache is non-empty. -/
theorem clearLoop_succ_pos {s : LRU K V} (hc : Len s > 0) (n : Nat) :
    clearLoop (n + 1) s =
      ((clearLoop n (RemoveOldest s).1).1,
       (RemoveOldest s).2.2.2.2 ++ (clearLoop n (RemoveOldest s).1).2) := by
  conv_lhs => unfold clearLoop
  rw [if_pos hc]

/-- Step equation of the clear loop when the cache is empty. -/
theorem clearLoop_succ_neg {s : LRU K V} (hc : ¬ Len s > 0) (n : Nat) :
    clearLoop (n + 1) s = (s, []) := by
  unfold clearLoop
  rw [if_neg hc]

/-- The clear loop, given enough fuel, empties the cache and emits one
eviction event per entry, back-to-front (oldest first). -/
theorem clearLoop_spec (fuel : Nat) :
    ∀ s : LRU K V, s.items.length ≤ fuel →
      (clearLoop fuel s).1.items = [] ∧
      (clearLoop fuel s).2 = (s.items.map fun nd => (nd.key, nd.value)).reverse := by
  induction fuel with
  | zero =>
    intro s hs
    have hnil : s.items = [] := List.length_eq_zero.1 (Nat.le_zero.1 hs)
    exact ⟨hnil, by rw [hnil]; rfl⟩
  | succ n ih =>
    intro s hs
    by_cases hc : Len s > 0
    · have hne : s.items ≠ [] := by
        intro he
        rw [Len_eq, he] at hc
        simp at hc
      cases hl : s.items.getLast? with
      | none => exact absurd (List.getLast?_eq_none_iff.1 hl) hne
      | some nd =>
        have hsplit : s.items.dropLast ++ [nd] = s.items :=
          List.dropLast_append_getLast? nd hl
        rw [clearLoop_succ_pos hc n, RemoveOldest_back hl]
        have hlen2 : s.items.dropLast.length ≤ n := by
          rw [List.length_dropLast]
          have : s.items.length ≠ 0 := fun he => hne (List.length_eq_zero.1 he)
          omega
        obtain ⟨ih1, ih2⟩ :=
          ih { s with elem := mapDel s.elem nd.key, items := s.items.dropLast } hlen2
        refine ⟨ih1, ?_⟩
        rw [ih2]
        show (nd.key, nd.value) :: (s.items.dropLast.map fun x => (x.key, x.value)).reverse
          = (s.items.map fun x => (x.key, x.value)).reverse
        conv_rhs => rw [← hsplit]
        rw [List.map_append, List.reverse_append]
        rfl
    · rw [clearLoop_succ_neg hc n]
      have hnil : s.items = [] := by
        rw [Len_eq] at hc
        have : s.items.length = 0 := by omega
        exact List.length_eq_zero.1 this
      exact ⟨hnil, by rw [hnil]; rfl⟩

/-- On a key the post-state map misses, all three lookups report not
found. -/
theorem lookup_miss_reports_false {s' : LRU K V} {k' : K}
    (hm : mapGet s'.elem k' = none) :
    (Get s' k').2.2 = false ∧ (Pick s' k').2.2 = false ∧
    (Remove s' k').2.2.1 = false := by
  rw [Get_miss hm, Pick_miss hm, Remove_miss hm]
  exact ⟨rfl, rfl, rfl⟩

end OperationFacts

section Claims

/-- C1: the claim says `Resize(n)` with `n ≤ 0` treats the capacity as
unbounded and performs no eviction — returning 0, invoking no callback and
leaving the contents unchanged, so that `Resize(0)` on a non-empty cache
does not clear it.  The code disagrees: its loop `for lru.Len() > size`
makes `Resize(0)` on a cache holding (1, 10) and (2, 20) evict both
entries (returning 2 with two callback invocations), and makes any
`Resize(-1)` — even on an empty cache — loop forever (modelled as `none`). -/
theorem resize_nonpositive_evicts_or_diverges :
    (Resize (runSets (New Nat Nat 3) [(1, 10), (2, 20)]) 0 =
      some ({ elem := [], items := [], nextId := 2, size := 0 }, 2,
        [(1, 10), (2, 20)])) ∧
    Resize (runSets (New Nat Nat 3) [(1, 10), (2, 20)]) (-1) = none ∧
    Resize (New Nat Nat 3) (-1) = none := by
  decide

/-- C5: `Clear()` on a cache with entries e1..em (oldest to newest)
invokes the eviction callback exactly m times, in oldest-first order
(`items` is newest-first, so the event list is its reverse), each with
that entry's (key, value) pair, and afterwards `Len() = 0`. -/
theorem clear_notifies_every_entry_oldest_first (s : LRU K V) :
    (Clear s).2 = (s.items.map fun nd => (nd.key, nd.value)).reverse ∧
    (Clear s).2.length = s.items.length ∧
    Len (Clear s).1 = 0 := by
  obtain ⟨h1, h2⟩ := clearLoop_spec s.items.length s (le_refl _)
  refine ⟨h2, ?_, ?_⟩
  · rw [show (Clear s).2 = (clearLoop s.items.length s).2 from rfl, h2]
    simp
  · rw [Len_eq, show (Clear s).1 = (clearLoop s.items.length s).1 from rfl, h1]
    rfl

/-- C6: `Pick(k)` returns exactly the (value, found) pair `Get(k)` would
return in the same state, but leaves the entire cache state unchanged —
contents, the order observed by any (hence also a full) `All` traversal,
`Len`, and the capacity. -/
theorem pick_same_result_as_get_no_state_change (s : LRU K V) (k : K) :
    (Pick s k).2 = (Get s k).2 ∧
    (Pick s k).1 = s ∧
    (∀ y, All (Pick s k).1 y = All s y) ∧
    Len (Pick s k).1 = Len s ∧
    (Pick s k).1.size = s.size := by
  have hst := Pick_state s k
  refine ⟨?_, hst, fun y => by rw [hst], by rw [hst], by rw [hst]⟩
  cases hm : mapGet s.elem k with
  | none => rw [Pick_miss hm, Get_miss hm]
  | some i =>
    cases hf : s.items.find? fun x => x.id = i with
    | none => rw [Pick_hit_dangling hm hf, Get_hit_dangling hm hf]
    | some nd => rw [Pick_hit hm hf, Get_hit hm hf]

/-- C8: `Remove(k)` on an absent key returns the zero value with
found = false, emits no eviction event, and leaves the state unchanged;
`RemoveOldest()` on an empty cache returns zero key and value with
found = false, emits no event, and changes nothing. -/
theorem remove_absent_and_removeOldest_empty_are_noops
    (s t : LRU K V) (k : K)
    (hm : mapGet s.elem k = none) (ht : t.items = []) :
    Remove s k = (s, default, false, []) ∧
    RemoveOldest t = (t, default, default, false, []) := by
  refine ⟨Remove_miss hm, ?_⟩
  apply RemoveOldest_empty
  rw [ht]
  rfl

/-- Witness for C8 at a concrete input: key 5 is absent from a cache
holding only key 1, and a fresh cache is empty. -/
theorem remove_absent_and_removeOldest_empty_are_noops_witness :
    Remove (runSets (New Nat Nat 2) [(1, 10)]) 5 =
      (runSets (New Nat Nat 2) [(1, 10)], default, false, []) ∧
    RemoveOldest (New Nat Nat 2) =
      (New Nat Nat 2, default, default, false, []) :=
  remove_absent_and_removeOldest_empty_are_noops
    (runSets (New Nat Nat 2) [(1, 10)]) (New Nat Nat 2) 5 (by decide) rfl

/-- C9: whenever `Remove` or `RemoveOldest` emits an eviction event — the
exact point where the registered callback is invoked, and the primitive
through which capacity-triggered eviction, `Resize` and `Clear` also
evict — the evicted key is already fully detached from the index and the
list in the state the callback observes: `Get`, `Pick` and `Remove` on
that key all report found = false there. -/
theorem callback_observes_post_removal_state
    (s t : LRU K V) (k ek ek' : K) (ev ev' : V)
    (h1 : (Remove s k).2.2.2 = [(ek, ev)])
    (h2 : (RemoveOldest t).2.2.2.2 = [(ek', ev')]) :
    ((Get (Remove s k).1 ek).2.2 = false ∧
     (Pick (Remove s k).1 ek).2.2 = false ∧
     (Remove (Remove s k).1 ek).2.2.1 = false) ∧
    ((Get (RemoveOldest t).1 ek').2.2 = false ∧
     (Pick (RemoveOldest t).1 ek').2.2 = false ∧
     (Remove (RemoveOldest t).1 ek').2.2.1 = false) := by
  constructor
  · cases hm : mapGet s.elem k with
    | none => rw [Remove_miss hm] at h1; simp at h1
    | some i =>
      cases hf : s.items.find? fun x => x.id = i with
      | none => rw [Remove_hit_dangling hm hf] at h1; simp at h1
      | some nd =>
        rw [Remove_hit hm hf] at h1
        simp only [Prod.mk.injEq, List.cons.injEq] at h1
        obtain ⟨⟨hek, -⟩, -⟩ := h1
        apply lookup_miss_reports_false
        rw [Remove_hit hm hf]
        show mapGet (mapDel s.elem nd.key) ek = none
        rw [← hek]
        exact mapGet_mapDel_self s.elem nd.key
  · cases hl : t.items.getLast? with
    | none => rw [RemoveOldest_empty hl] at h2; simp at h2
    | some nd =>
      rw [RemoveOldest_back hl] at h2
      simp only [Prod.mk.injEq, List.cons.injEq] at h2
      obtain ⟨⟨hek, -⟩, -⟩ := h2
      apply lookup_miss_reports_false
      rw [RemoveOldest_back hl]
      show mapGet (mapDel t.elem nd.key) ek' = none
      rw [← hek]
      exact mapGet_mapDel_self t.elem nd.key

/-- Witness for C9 at a concrete input: removing key 1 (value 10) from a
two-entry cache, and removing the oldest entry of the same cache. -/
theorem callback_observes_post_removal_state_witness :
    ((Get (Remove (runSets (New Nat Nat 3) [(1, 10), (2, 20)]) 1).1 1).2.2 = false ∧
     (Pick (Remove (runSets (New Nat Nat 3) [(1, 10), (2, 20)]) 1).1 1).2.2 = false ∧
     (Remove (Remove (runSets (New Nat Nat 3) [(1, 10), (2, 20)]) 1).1 1).2.2.1 = false) ∧
    ((Get (RemoveOldest (runSets (New Nat Nat 3) [(1, 10), (2, 20)])).1 1).2.2 = false ∧
     (Pick (RemoveOldest (runSets (New Nat Nat 3) [(1, 10), (2, 20)])).1 1).2.2 = false ∧
     (Remove (RemoveOldest (runSets (New Nat Nat 3) [(1, 10), (2, 20)])).1 1).2.2.1 = false) :=
  callback_observes_post_removal_state
    (runSets (New Nat Nat 3) [(1, 10), (2, 20)])
    (runSets (New Nat Nat 3) [(1, 10), (2, 20)])
    1 1 1 10 10 (by decide) (by decide)

/-- The first key of a full `All` traversal is the front node's key. -/
theorem All_head_key {s' : LRU K V} {x : Node K V} {t : List (Node K V)}
    (hit : s'.items = x :: t) :
    ((All s' contYield).map Prod.fst).head? = some x.key := by
  unfold All
  rw [hit, allVisit_cont]
  simp

/-- C2: starting from `New(N)` with N > 0, `Len` never exceeds N after
any sequence of `Set` calls; and when a `Set` that adds a new key arrives
with the count at N, exactly one event is emitted, for the back entry. -/
theorem capacity_never_exceeded (N : Int) (hN : 0 < N) (ops : List (K × V)) :
    Len (runSets (New K V N) ops) ≤ N ∧
    (∀ k v, mapGet (runSets (New K V N) ops).elem k = none →
      Len (runSets (New K V N) ops) = N →
      ∃ nd, (runSets (New K V N) ops).items.getLast? = some nd ∧
        (Set (runSets (New K V N) ops) k v).2 = [(nd.key, nd.value)]) := by
  have hinit : Len (New K V N) ≤ N := by
    rw [Len_eq]
    show ((0 : Nat) : Int) ≤ N
    simpa using hN.le
  obtain ⟨hsz, hlen⟩ := runSets_size_le hN ops rfl hinit
  refine ⟨hlen, ?_⟩
  intro k v hm hLen
  have hne : (runSets (New K V N) ops).items ≠ [] := by
    intro he
    rw [Len_eq, he] at hLen
    simp at hLen
    omega
  cases hl : (runSets (New K V N) ops).items.getLast? with
  | none => exact absurd (List.getLast?_eq_none_iff.1 hl) hne
  | some nd =>
    refine ⟨nd, rfl, ?_⟩
    set s := runSets (New K V N) ops with hs
    have hc : (pushFront s k v).size > 0 ∧
        ((pushFront s k v).items.length : Int) > (pushFront s k v).size := by
      constructor
      · rw [pushFront_size, hsz]
        exact hN
      · rw [pushFront_size, pushFront_items, hsz]
        simp only [List.length_cons]
        rw [Len_eq] at hLen
        push_cast
        omega
    rw [Set_miss_evict v hm hc]
    have hl2 : (pushFront s k v).items.getLast? = some nd := by
      rw [pushFront_items, getLast?_cons_of_ne_nil _ hne]
      exact hl
    rw [RemoveOldest_back hl2]

/-- Witness for C2 at N = 2 and a concrete overflowing insertion
sequence. -/
theorem capacity_never_exceeded_witness :
    Len (runSets (New Nat Nat 2) [(1, 10), (2, 20), (3, 30)]) ≤ 2 ∧
    (∀ k v,
      mapGet (runSets (New Nat Nat 2) [(1, 10), (2, 20), (3, 30)]).elem k = none →
      Len (runSets (New Nat Nat 2) [(1, 10), (2, 20), (3, 30)]) = 2 →
      ∃ nd,
        (runSets (New Nat Nat 2) [(1, 10), (2, 20), (3, 30)]).items.getLast? =
          some nd ∧
        (Set (runSets (New Nat Nat 2) [(1, 10), (2, 20), (3, 30)]) k v).2 =
          [(nd.key, nd.value)]) :=
  capacity_never_exceeded 2 (by decide) [(1, 10), (2, 20), (3, 30)]

/-- C3: immediately after `Set(k, v)` returns, and immediately after a
`Get(k)` that returns found = true, k is the most-recently-used key: a
full newest-to-oldest `All` traversal yields k first. -/
theorem set_get_make_key_most_recent {s : LRU K V} (h : Inv s) (k : K) (v : V) :
    ((All (Set s k v).1 contYield).map Prod.fst).head? = some k ∧
    ((Get s k).2.2 = true →
      ((All (Get s k).1 contYield).map Prod.fst).head? = some k) := by
  constructor
  · cases hm : mapGet s.elem k with
    | some i =>
      obtain ⟨nd, hf⟩ := inv_find_isSome h hm
      have hkey : nd.key = k := (inv_find_key h hm hf).1
      rw [Set_hit v hm hf,
        All_head_key (x := ⟨nd.id, nd.key, v⟩)
          (t := s.items.filter fun x => ¬ x.id = i) rfl]
      rw [show (⟨nd.id, nd.key, v⟩ : Node K V).key = nd.key from rfl, hkey]
    | none =>
      by_cases hc : (pushFront s k v).size > 0 ∧
          ((pushFront s k v).items.length : Int) > (pushFront s k v).size
      · rw [Set_miss_evict v hm hc]
        have hne : s.items ≠ [] := by
          intro he
          rcases hc with ⟨hc1, hc2⟩
          rw [pushFront_size] at hc1
          rw [pushFront_items, he, pushFront_size] at hc2
          simp only [List.length_cons, List.length_nil] at hc2
          omega
        cases hl : (pushFront s k v).items.getLast? with
        | none =>
          rw [pushFront_items] at hl
          exact absurd (List.getLast?_eq_none_iff.1 hl) (by simp)
        | some old =>
          rw [RemoveOldest_back hl]
          obtain ⟨b, t, hbt⟩ : ∃ b t, s.items = b :: t := by
            cases hsi : s.items with
            | nil => exact absurd hsi hne
            | cons b t => exact ⟨b, t, rfl⟩
          have hdrop : (pushFront s k v).items.dropLast =
              (⟨s.nextId, k, v⟩ : Node K V) :: s.items.dropLast := by
            rw [pushFront_items, hbt]
            exact List.dropLast_cons₂
          rw [All_head_key (x := ⟨s.nextId, k, v⟩)
            (t := s.items.dropLast) hdrop]
      · rw [Set_miss_noevict v hm hc,
          All_head_key (x := ⟨s.nextId, k, v⟩) (t := s.items) rfl]
  · intro hfound
    cases hm : mapGet s.elem k with
    | none => rw [Get_miss hm] at hfound; simp at hfound
    | some i =>
      cases hf : s.items.find? fun x => x.id = i with
      | none => rw [Get_hit_dangling hm hf] at hfound; simp at hfound
      | some nd =>
        have hkey : nd.key = k := (inv_find_key h hm hf).1
        rw [Get_hit hm hf,
          All_head_key (x := nd) (t := s.items.filter fun x => ¬ x.id = i) rfl,
          hkey]

/-- Witness for C3 on a concrete two-entry cache and key 1. -/
theorem set_get_make_key_most_recent_witness :
    ((All (Set (runSets (New Nat Nat 2) [(1, 10), (2, 20)]) 1 99).1
        contYield).map Prod.fst).head? = some 1 ∧
    ((Get (runSets (New Nat Nat 2) [(1, 10), (2, 20)]) 1).2.2 = true →
      ((All (Get (runSets (New Nat Nat 2) [(1, 10), (2, 20)]) 1).1
          contYield).map Prod.fst).head? = some 1) :=
  set_get_make_key_most_recent (by decide) 1 99

/-- C7: `Set(k, v)` on a present key updates k's value in place and moves
it to the front; it emits no eviction event regardless of capacity,
leaves `Len` unchanged, and leaves every other key's lookup result
unchanged. -/
theorem set_existing_key_updates_in_place {s : LRU K V} (h : Inv s)
    {k : K} {i : Nat} (hm : mapGet s.elem k = some i) (v : V) :
    (Set s k v).2 = [] ∧
    Len (Set s k v).1 = Len s ∧
    (All (Set s k v).1 contYield).head? = some (k, v) ∧
    (∀ k', ¬ k' = k → (Pick (Set s k v).1 k').2 = (Pick s k').2) := by
  obtain ⟨nd, hf⟩ := inv_find_isSome h hm
  have hkey : nd.key = k := (inv_find_key h hm hf).1
  have hnid : nd.id = i := (inv_find_key h hm hf).2
  have hstate := Set_hit v hm hf
  refine ⟨by rw [hstate], ?_, ?_, ?_⟩
  · rw [hstate, Len_eq, Len_eq]
    show (((⟨nd.id, nd.key, v⟩ : Node K V) ::
        (s.items.filter fun x => ¬ x.id = i)).length : Int) =
      (s.items.length : Int)
    have hflen := length_filter_find? (f := Node.id) (b := i) h.2.1 hf
    simp only [List.length_cons]
    exact_mod_cast hflen
  · rw [hstate]
    show (All { s with items := (⟨nd.id, nd.key, v⟩ : Node K V) ::
        (s.items.filter fun x => ¬ x.id = i) } contYield).head? = some (k, v)
    unfold All
    rw [allVisit_cont]
    simp [hkey]
  · intro k' hk'
    have helem : (Set s k v).1.elem = s.elem := by rw [hstate]
    cases hm' : mapGet s.elem k' with
    | none =>
      rw [Pick_miss (s := (Set s k v).1) (by rw [helem]; exact hm'),
        Pick_miss hm']
    | some i' =>
      have hii : ¬ i' = i := by
        intro he
        exact hk' (inv_mapGet_inj h (he ▸ hm') hm)
      have hfind : (Set s k v).1.items.find? (fun x => x.id = i') =
          s.items.find? (fun x => x.id = i') := by
        rw [hstate]
        show (((⟨nd.id, nd.key, v⟩ : Node K V) ::
            (s.items.filter fun x => ¬ x.id = i)).find? fun x => x.id = i') = _
        rw [List.find?_cons_of_neg]
        · exact find?_filter_ne_id hii
        · show ¬ (decide ((⟨nd.id, nd.key, v⟩ : Node K V).id = i') = true)
          simp only [decide_eq_true_eq]
          rw [show (⟨nd.id, nd.key, v⟩ : Node K V).id = nd.id from rfl, hnid]
          exact fun he => hii he.symm
      cases hf' : s.items.find? fun x => x.id = i' with
      | none =>
        rw [Pick_hit_dangling (s := (Set s k v).1)
            (by rw [helem]; exact hm') (by rw [hfind]; exact hf'),
          Pick_hit_dangling hm' hf']
      | some m =>
        rw [Pick_hit (s := (Set s k v).1)
            (by rw [helem]; exact hm') (by rw [hfind]; exact hf'),
          Pick_hit hm' hf']

/-- Witness for C7: updating the present key 1 in a concrete two-entry
cache. -/
theorem set_existing_key_updates_in_place_witness :
    (Set (runSets (New Nat Nat 2) [(1, 10), (2, 20)]) 1 99).2 = [] ∧
    Len (Set (runSets (New Nat Nat 2) [(1, 10), (2, 20)]) 1 99).1 =
      Len (runSets (New Nat Nat 2) [(1, 10), (2, 20)]) ∧
    (All (Set (runSets (New Nat Nat 2) [(1, 10), (2, 20)]) 1 99).1
      contYield).head? = some (1, 99) ∧
    (∀ k', ¬ k' = 1 →
      (Pick (Set (runSets (New Nat Nat 2) [(1, 10), (2, 20)]) 1 99).1 k').2 =
      (Pick (runSets (New Nat Nat 2) [(1, 10), (2, 20)]) k').2) :=
  set_existing_key_updates_in_place (i := 0) (by decide) (by decide) 99

/-- C4: in every state reachable from a freshly constructed cache by any
operation sequence, the index and the recency sequence are in bijection:
every indexed key has exactly one live node (carrying that key), every
live node's key is indexed and maps back to that node, and the index size
equals the sequence length, which is `Len`. -/
theorem index_and_sequence_in_bijection (n : Int) (ops : List (Op K V)) :
    (∀ k i, mapGet (run (New K V n) ops).elem k = some i →
      ∃! nd, nd ∈ (run (New K V n) ops).items ∧ nd.id = i ∧ nd.key = k) ∧
    (∀ nd ∈ (run (New K V n) ops).items,
      mapGet (run (New K V n) ops).elem nd.key = some nd.id) ∧
    (run (New K V n) ops).elem.length = (run (New K V n) ops).items.length ∧
    Len (run (New K V n) ops) = ((run (New K V n) ops).items.length : Int) := by
  have hinv : Inv (run (New K V n) ops) := inv_run (inv_New n) ops
  obtain ⟨hkeys, hids, hmap, hsound, hfresh⟩ := hinv
  have hinv2 : Inv (run (New K V n) ops) := ⟨hkeys, hids, hmap, hsound, hfresh⟩
  refine ⟨?_, ?_, inv_length hinv2, rfl⟩
  · intro k i hm
    obtain ⟨m, hmm, hmi, hmk⟩ := hmap _ (mapGet_some_mem hm)
    refine ⟨m, ⟨hmm, by simpa using hmi, by simpa using hmk⟩, ?_⟩
    rintro y ⟨hy, hyi, -⟩
    have hmi2 : m.id = i := by simpa using hmi
    exact nodup_map_mem_inj hids hy hmm (by rw [hyi, hmi2])
  · intro nd hnd
    exact mapGet_of_mem_nodup hkeys (hsound nd hnd)

/-- Witness for C4 at a concrete reachable state: key 1 (pointer 0) has
exactly one live node, and the index size matches the sequence length. -/
theorem index_and_sequence_in_bijection_witness :
    (∃! nd, nd ∈ (run (New Nat Nat 2) [Op.set 1 10, Op.set 2 20]).items ∧
      nd.id = 0 ∧ nd.key = 1) ∧
    (run (New Nat Nat 2) [Op.set 1 10, Op.set 2 20]).elem.length =
      (run (New Nat Nat 2) [Op.set 1 10, Op.set 2 20]).items.length :=
  ⟨(index_and_sequence_in_bijection 2 [Op.set 1 10, Op.set 2 20]).1 1 0 (by decide),
   (index_and_sequence_in_bijection 2 [Op.set 1 10, Op.set 2 20]).2.2.1⟩

end Claims

section MutexWrapper

/-- Exclusive-lock events of the concurrent wrapper (`mutex.go`):
`lock`/`unlock` are `m.mut.Lock()`/`m.mut.Unlock()` on the wrapper's
`sync.RWMutex`, and `user` marks a transfer of control to caller-supplied
code (the registered eviction callback, or a `yield` call inside
`All`/`Backward`). -/
inductive LockEv where
  | lock
  | unlock
  | user
  deriving DecidableEq, Repr

/-- Runs a trace against a non-reentrant exclusive lock held `h` times
(0 or 1): `lock` while held is a self-deadlock and `unlock` while free a
fault, both modelled as `none`; a `user` step must run with the lock
released, which is what allows the caller-supplied code to re-enter the
wrapper.  Returns the final hold count. -/
def traceOk : Nat → List LockEv → Option Nat
  | h, [] => some h
  | 0, LockEv.lock :: r => traceOk 1 r
  | 1, LockEv.unlock :: r => traceOk 0 r
  | 0, LockEv.user :: r => traceOk 0 r
  | _, _ => none

/-- Checks (tracking the previous event) that every `user` event is
immediately preceded by `unlock` and immediately followed by `lock`. -/
def userBracketedAux : Option LockEv → List LockEv → Bool
  | _, [] => true
  | prev, LockEv.user :: r =>
    decide (prev = some LockEv.unlock) &&
      (match r with
       | LockEv.lock :: _ => true
       | _ => false) &&
      userBracketedAux (some LockEv.user) r
  | _, e :: r => userBracketedAux (some e) r

/-- Every `user` event of the trace sits directly between an `unlock` and
a `lock`. -/
def userBracketed (l : List LockEv) : Bool :=
  userBracketedAux none l

/-- Lock trace of the wrapped eviction callback installed by
`MutexLRU.OnEvicted`: `m.mut.Unlock(); defer m.mut.Lock(); cb(k, v)`.
It executes while the wrapper holds the write lock (inside `Set`,
`Remove`, `RemoveOldest`, `Resize` or `Clear`). -/
def onEvictedWrapTrace : List LockEv :=
  [LockEv.unlock, LockEv.user, LockEv.lock]

/-- Lock trace of `MutexLRU.All`/`Backward` after the initial
`m.mut.Lock()`: for each entry the core iterator yields, the wrapped
yield runs `m.mut.Unlock(); yield(key, value)` with a deferred
`m.mut.Lock()`; when the traversal ends, the outer deferred
`m.mut.Unlock()` runs. -/
def mutexIterBody : Nat → List LockEv
  | 0 => [LockEv.unlock]
  | n + 1 => LockEv.unlock :: LockEv.user :: LockEv.lock :: mutexIterBody n

/-- Full lock trace of `MutexLRU.All`/`Backward` when the underlying
traversal calls `yield` `n` times. -/
def mutexIterTrace (n : Nat) : List LockEv :=
  LockEv.lock :: mutexIterBody n

/-- Replaces each `user` event by the lock trace of the re-entrant
wrapper calls the caller-supplied code performs. -/
def substUser (t : List LockEv) : List LockEv → List LockEv
  | [] => []
  | LockEv.user :: r => t ++ substUser t r
  | e :: r => e :: substUser t r

/-- Lock traces compose: running an appended trace threads the hold count
through. -/
theorem traceOk_append (a b : List LockEv) (h : Nat) :
    traceOk h (a ++ b) = (traceOk h a).bind fun h2 => traceOk h2 b := by
  induction a generalizing h with
  | nil => rcases h with _ | _ | h2 <;> rfl
  | cons e r ih =>
    rcases h with _ | _ | h2
    · cases e
      · exact ih 1
      · rfl
      · exact ih 0
    · cases e
      · rfl
      · exact ih 0
      · rfl
    · cases e <;> rfl

/-- Substituting a balanced re-entrant trace for every `user` step of a
valid trace leaves the trace valid with the same final hold count. -/
theorem traceOk_substUser {t : List LockEv} (ht : traceOk 0 t = some 0) :
    ∀ (l : List LockEv) (h : Nat), (traceOk h l).isSome = true →
      traceOk h (substUser t l) = traceOk h l := by
  intro l
  induction l with
  | nil => intro h _; rfl
  | cons e r ih =>
    intro h hsome
    rcases h with _ | _ | h2
    · cases e
      · exact ih 1 hsome
      · exact absurd hsome (by simp [traceOk])
      · show traceOk 0 (t ++ substUser t r) = traceOk 0 r
        rw [traceOk_append, ht]
        exact ih 0 hsome
    · cases e
      · exact absurd hsome (by simp [traceOk])
      · exact ih 0 hsome
      · exact absurd hsome (by simp [traceOk])
    · cases e <;> exact absurd hsome (by simp [traceOk])

/-- The iteration loop body, entered with the lock held, releases around
each yield and ends having released the lock. -/
theorem traceOk_mutexIterBody (n : Nat) : traceOk 1 (mutexIterBody n) = some 0 := by
  induction n with
  | zero => rfl
  | succ m ih => exact ih

/-- Every yield step of the iteration trace is tightly bracketed. -/
theorem userBracketedAux_mutexIterBody (n : Nat) :
    userBracketedAux (some LockEv.lock) (mutexIterBody n) = true := by
  induction n with
  | zero => rfl
  | succ m ih =>
    show userBracketedAux (some LockEv.unlock)
      (LockEv.user :: LockEv.lock :: mutexIterBody m) = true
    unfold userBracketedAux
    simpa using ih

end MutexWrapper

section ClaimsConcurrency

/-- C10: wherever the concurrent wrapper transfers control to
caller-supplied code — the eviction callback wrapped by `OnEvicted`, and
each yield step inside `All`/`Backward` — it releases the held exclusive
lock immediately before the call and reacquires it immediately after:
the callback trace run from the locked state is `unlock, user, lock`
ending locked, the iteration traces are valid from the unlocked state and
tightly bracketed, and substituting any balanced lock trace (a re-entrant
wrapper call such as a `Set` from inside the callback) for the `user`
steps keeps every trace deadlock-free with the same final hold count. -/
theorem wrapper_releases_lock_around_user_code :
    (traceOk 1 onEvictedWrapTrace = some 1 ∧
      userBracketed (LockEv.lock :: onEvictedWrapTrace) = true) ∧
    (∀ n, traceOk 0 (mutexIterTrace n) = some 0 ∧
      userBracketed (mutexIterTrace n) = true) ∧
    (∀ t, traceOk 0 t = some 0 →
      traceOk 1 (substUser t onEvictedWrapTrace) = some 1 ∧
      ∀ n, traceOk 0 (substUser t (mutexIterTrace n)) = some 0) := by
  refine ⟨⟨rfl, rfl⟩, ?_, ?_⟩
  · intro n
    refine ⟨traceOk_mutexIterBody n, ?_⟩
    show userBracketedAux (some LockEv.lock) (mutexIterBody n) = true
    exact userBracketedAux_mutexIterBody n
  · intro t ht
    constructor
    · have hs := traceOk_substUser ht onEvictedWrapTrace 1 (by rw [show traceOk 1 onEvictedWrapTrace = some 1 from rfl]; rfl)
      rw [hs]
      rfl
    · intro n
      have hok : traceOk 0 (mutexIterTrace n) = some 0 := traceOk_mutexIterBody n
      have hs := traceOk_substUser ht (mutexIterTrace n) 0 (by rw [hok]; rfl)
      rw [hs, hok]

/-- Witness for C10: substituting a concrete balanced re-entrant call
trace (a lock/unlock pair, as a `Set` from inside the callback would
produce) for the user steps of the wrapped callback and of a two-entry
iteration keeps both traces valid. -/
theorem wrapper_releases_lock_around_user_code_witness :
    traceOk 1 (substUser [LockEv.lock, LockEv.unlock] onEvictedWrapTrace) =
      some 1 ∧
    traceOk 0 (substUser [LockEv.lock, LockEv.unlock] (mutexIterTrace 2)) =
      some 0 :=
  ⟨(wrapper_releases_lock_around_user_code.2.2 [LockEv.lock, LockEv.unlock]
      rfl).1,
   (wrapper_releases_lock_around_user_code.2.2 [LockEv.lock, LockEv.unlock]
      rfl).2 2⟩

end ClaimsConcurrency

end LruSpec
